import Mathlib

/-!
Shallow embedding of the array-manipulation snippets of the d2l-en
notebooks (jax `pooling.ipynb`, jax `ndarray.ipynb`, mxnet
`init-param.ipynb`).  A tensor is modelled as a shape together with its
flat row-major data buffer over ℚ (the embedding of the real scalars);
the notebook functions (`pool2d`, reshape, broadcasting, the functional
index updates `X.at[i, j].set(v)`, and the parameter initializers) are
translated below, and the theorems at the end of the file settle the
claims about them.
-/

namespace D2L

/-- A tensor: a shape `[d0, d1, ...]` and the flat data buffer laid out in
row-major order, exactly as the jax/numpy arrays of the notebooks. -/
structure Tensor where
  shape : List Nat
  data : List ℚ
deriving DecidableEq

/-- Number of rows of a matrix (its `shape[0]`). -/
def rows (t : Tensor) : Nat := t.shape.getD 0 0

/-- Number of columns of a matrix (its `shape[1]`). -/
def cols (t : Tensor) : Nat := t.shape.getD 1 0

/-- Row-major flat position of the multi-index `idx` inside `shape`:
`flatIndex [d0, d1] [i, j] = i * d1 + j`, and so on for higher rank. -/
def flatIndex (shape idx : List Nat) : Nat :=
  (List.zip shape idx).foldl (fun acc p => acc * p.1 + p.2) 0

/-- General multi-dimensional read `t[idx]` (row-major). -/
def getM (t : Tensor) (idx : List Nat) : ℚ :=
  t.data.getD (flatIndex t.shape idx) 0

/-- Two-dimensional read `t[i, j]` of a matrix. -/
def get2 (t : Tensor) (i j : Nat) : ℚ :=
  t.data.getD (i * cols t + j) 0

/-- The functional update `t.at[i, j].set(v)` of the jax notebooks: a new
tensor whose buffer agrees with `t` except at the flat position of
`(i, j)`. -/
def setAt2 (t : Tensor) (i j : Nat) (v : ℚ) : Tensor :=
  ⟨t.shape, t.data.set (i * cols t + j) v⟩

/-- The slice update `t.at[:r, :].set(v)` of the jax notebooks: the first
`r` rows (flat positions below `r * cols t`) are set to `v`. -/
def setRows (t : Tensor) (r : Nat) (v : ℚ) : Tensor :=
  ⟨t.shape, List.replicate (min (r * cols t) t.data.length) v ++ t.data.drop (r * cols t)⟩

/-- The library call `jnp.zeros((m, n))`. -/
def zeros2 (m n : Nat) : Tensor := ⟨[m, n], List.replicate (m * n) 0⟩

/-- Maximum of the elements of a list, as the library `.max()` computes it
on the (nonempty) flattened window. -/
def listMax : List ℚ → ℚ
  | [] => 0
  | x :: xs => xs.foldl max x

/-- The elements of the window slice `X[i : i + ph, j : j + pw]` in
row-major order. -/
def sliceElems (X : Tensor) (i j ph pw : Nat) : List ℚ :=
  (List.range ph).flatMap (fun a => (List.range pw).map (fun b => get2 X (i + a) (j + b)))

/-- Translation of the notebook function

`def pool2d(X, pool_size, mode="max"):`
`    p_h, p_w = pool_size`
`    Y = jnp.zeros((X.shape[0] - p_h + 1, X.shape[1] - p_w + 1))`
`    for i in range(Y.shape[0]):`
`        for j in range(Y.shape[1]):`
`            if mode == "max":`
`                Y = Y.at[i, j].set(X[i: i + p_h, j: j + p_w].max())`
`            elif mode == "avg":`
`                Y = Y.at[i, j].set(X[i: i + p_h, j: j + p_w].mean())`
`    return Y`

with `.mean()` being sum over number of elements.  Python subtraction is
over ℤ; over ℕ the output extent is written `shape + 1 - p` so that it
agrees with ℤ whenever the extent is nonnegative (the remaining cases
make the library `zeros` call fail, see `zerosLib` below). -/
def pool2d (X : Tensor) (p : Nat × Nat) (mode : String) : Tensor :=
  let ph := p.1
  let pw := p.2
  let Y0 := zeros2 (rows X + 1 - ph) (cols X + 1 - pw)
  (List.range (rows Y0)).foldl (fun Y i =>
    (List.range (cols Y0)).foldl (fun Y j =>
      if mode = "max" then setAt2 Y i j (listMax (sliceElems X i j ph pw))
      else if mode = "avg" then
        setAt2 Y i j ((sliceElems X i j ph pw).sum / ((sliceElems X i j ph pw).length : ℚ))
      else Y) Y) Y0

/-- The library `jnp.zeros` with the dimensions as the integers Python
computes: it fails (raises) on a negative dimension and on nothing
else. -/
def zerosLib (r c : ℤ) : Option Tensor :=
  if 0 ≤ r ∧ 0 ≤ c then some (zeros2 r.toNat c.toNat) else none

/-- `pool2d` with the library boundary made explicit: the only fallible
step is the library `zeros` call, whose failure the function does not
catch; the loop itself is total and adds no error of its own. -/
def pool2dChecked (X : Tensor) (p : Nat × Nat) (mode : String) : Option Tensor :=
  match zerosLib ((rows X : ℤ) - p.1 + 1) ((cols X : ℤ) - p.2 + 1) with
  | none => none
  | some Y0 =>
    some ((List.range (rows Y0)).foldl (fun Y i =>
      (List.range (cols Y0)).foldl (fun Y j =>
        if mode = "max" then setAt2 Y i j (listMax (sliceElems X i j p.1 p.2))
        else if mode = "avg" then
          setAt2 Y i j ((sliceElems X i j p.1 p.2).sum / ((sliceElems X i j p.1 p.2).length : ℚ))
        else Y) Y) Y0)

/-- The example input of the pooling notebook,
`X = jnp.array([[0.0, 1.0, 2.0], [3.0, 4.0, 5.0], [6.0, 7.0, 8.0]])`. -/
def X3 : Tensor := ⟨[3, 3], [0, 1, 2, 3, 4, 5, 6, 7, 8]⟩

theorem shape_setAt2 (t : Tensor) (i j : Nat) (v : ℚ) : (setAt2 t i j v).shape = t.shape := rfl

theorem length_setAt2 (t : Tensor) (i j : Nat) (v : ℚ) :
    (setAt2 t i j v).data.length = t.data.length := List.length_set ..

theorem cols_eq {t : Tensor} {m n : Nat} (hs : t.shape = [m, n]) : cols t = n := by
  simp [cols, hs]

theorem rows_eq {t : Tensor} {m n : Nat} (hs : t.shape = [m, n]) : rows t = m := by
  simp [rows, hs]

theorem flat_lt {i j m n : Nat} (hi : i < m) (hj : j < n) : i * n + j < m * n := by
  have h1 : i * n + j < i * n + n := by omega
  have h2 : i * n + n = (i + 1) * n := by ring
  have h3 : (i + 1) * n ≤ m * n := Nat.mul_le_mul_right n (by omega)
  omega

theorem flat_ne {i j k l n : Nat} (hj : j < n) (hl : l < n) (hne : (i, j) ≠ (k, l)) :
    i * n + j ≠ k * n + l := by
  intro heq
  have heq2 : n * i + j = n * k + l := by
    rw [Nat.mul_comm n i, Nat.mul_comm n k]; exact heq
  have hik : i = k := by
    have h1 : (n * i + j) / n = i := by
      rw [Nat.mul_add_div (by omega), Nat.div_eq_of_lt hj]
      omega
    have h2 : (n * k + l) / n = k := by
      rw [Nat.mul_add_div (by omega), Nat.div_eq_of_lt hl]
      omega
    rw [← h1, heq2, h2]
  apply hne
  subst hik
  have : j = l := by omega
  subst this
  rfl

theorem get2_setAt2_self {t : Tensor} {m n : Nat} (hs : t.shape = [m, n])
    (hlen : t.data.length = m * n) {i j : Nat} (hi : i < m) (hj : j < n) (v : ℚ) :
    get2 (setAt2 t i j v) i j = v := by
  have hc : cols t = n := cols_eq hs
  have hidx : i * n + j < t.data.length := by rw [hlen]; exact flat_lt hi hj
  simp only [get2, setAt2, cols, shape_setAt2]
  rw [← cols, hc]
  rw [List.getD_eq_getElem _ _ (by simpa [List.length_set] using hidx)]
  exact List.getElem_set_self _

theorem get2_setAt2_ne {t : Tensor} {m n : Nat} (hs : t.shape = [m, n])
    {i j k l : Nat} (hj : j < n) (hl : l < n) (hne : (k, l) ≠ (i, j)) (v : ℚ) :
    get2 (setAt2 t i j v) k l = get2 t k l := by
  have hc : cols t = n := cols_eq hs
  have hidx : i * n + j ≠ k * n + l := flat_ne hj hl (by simpa using hne.symm)
  simp only [get2, setAt2, cols, shape_setAt2]
  rw [← cols, hc]
  by_cases hklt : k * n + l < t.data.length
  · rw [List.getD_eq_getElem _ _ (by simpa [List.length_set] using hklt),
      List.getD_eq_getElem _ _ hklt]
    exact List.getElem_set_ne hidx _
  · rw [List.getD_eq_default _ _ (by simpa [List.length_set] using Nat.le_of_not_lt hklt),
      List.getD_eq_default _ _ (Nat.le_of_not_lt hklt)]

theorem foldl_tensor_invariant {f : Tensor → Nat → Tensor}
    (hf : ∀ Y x, (f Y x).shape = Y.shape ∧ (f Y x).data.length = Y.data.length) :
    ∀ (js : List Nat) (Y : Tensor),
      (js.foldl f Y).shape = Y.shape ∧ (js.foldl f Y).data.length = Y.data.length := by
  intro js
  induction js with
  | nil => intro Y; exact ⟨rfl, rfl⟩
  | cons j js ih =>
    intro Y
    have h1 := ih (f Y j)
    have h2 := hf Y j
    simp only [List.foldl_cons]
    exact ⟨h1.1.trans h2.1, h1.2.trans h2.2⟩

theorem get2_foldl_inner {m n : Nat} (valf : Nat → ℚ) (i : Nat) :
    ∀ (js : List Nat) (Y : Tensor), Y.shape = [m, n] → Y.data.length = m * n →
      (∀ j ∈ js, j < n) → i < m →
      ∀ k l, l < n →
        get2 (js.foldl (fun Y j => setAt2 Y i j (valf j)) Y) k l =
          if k = i ∧ l ∈ js then valf l else get2 Y k l := by
  intro js
  induction js with
  | nil => intro Y hs hlen hjs hi k l hl; simp
  | cons j js ih =>
    intro Y hs hlen hjs hi k l hl
    have hjn : j < n := hjs j (by simp)
    have hs2 : (setAt2 Y i j (valf j)).shape = [m, n] := by rw [shape_setAt2, hs]
    have hlen2 : (setAt2 Y i j (valf j)).data.length = m * n := by rw [length_setAt2, hlen]
    simp only [List.foldl_cons]
    rw [ih _ hs2 hlen2 (fun a ha => hjs a (by simp [ha])) hi k l hl]
    by_cases hmem : k = i ∧ l ∈ js
    · simp [hmem]
    · rw [if_neg hmem]
      by_cases hkl : k = i ∧ l = j
      · obtain ⟨hk, hlj⟩ := hkl
        subst hk; subst hlj
        rw [get2_setAt2_self hs hlen hi hjn]
        simp
      · rw [get2_setAt2_ne hs hjn hl (by simp [Prod.ext_iff]; omega) ]
        have : ¬(k = i ∧ l ∈ j :: js) := by
          intro ⟨h1, h2⟩
          rcases List.mem_cons.mp h2 with h3 | h3
          · exact hkl ⟨h1, h3⟩
          · exact hmem ⟨h1, h3⟩
        rw [if_neg this]

theorem get2_foldl_outer {m n : Nat} (valf : Nat → Nat → ℚ) :
    ∀ (is : List Nat) (Y : Tensor), Y.shape = [m, n] → Y.data.length = m * n →
      (∀ i ∈ is, i < m) →
      ∀ k l, k < m → l < n →
        get2 (is.foldl (fun Y i =>
            (List.range n).foldl (fun Y j => setAt2 Y i j (valf i j)) Y) Y) k l =
          if k ∈ is then valf k l else get2 Y k l := by
  intro is
  induction is with
  | nil => intro Y hs hlen his k l hk hl; simp
  | cons i is ih =>
    intro Y hs hlen his k l hk hl
    have him : i < m := his i (by simp)
    have hinv := foldl_tensor_invariant
      (f := fun Y j => setAt2 Y i j (valf i j))
      (fun Y x => ⟨shape_setAt2 .., length_setAt2 ..⟩) (List.range n) Y
    simp only [List.foldl_cons]
    rw [ih _ (hinv.1.trans hs) (hinv.2.trans hlen) (fun a ha => his a (by simp [ha])) k l hk hl]
    rw [get2_foldl_inner (valf i) i (List.range n) Y hs hlen (fun a ha => List.mem_range.mp ha)
      him k l hl]
    by_cases hmem : k ∈ is <;> by_cases hki : k = i <;>
      simp [hmem, hki, List.mem_range, hl]

theorem get2_zeros2 (m n i j : Nat) : get2 (zeros2 m n) i j = 0 := by
  simp only [get2, zeros2, cols]
  by_cases h : i * n + j < m * n
  · rw [List.getD_eq_getElem _ _ (by simpa using h)]
    simp [List.getElem_replicate]
  · rw [List.getD_eq_default _ _ (by simpa using Nat.le_of_not_lt h)]

theorem foldl_max_mem : ∀ (xs : List ℚ) (x : ℚ), xs.foldl max x ∈ x :: xs := by
  intro xs
  induction xs with
  | nil => intro x; simp
  | cons y ys ih =>
    intro x
    rw [List.foldl_cons]
    rcases List.mem_cons.mp (ih (max x y)) with h | h
    · rcases max_choice x y with hc | hc
      · exact List.mem_cons.mpr (Or.inl (h.trans hc))
      · exact List.mem_cons.mpr (Or.inr (List.mem_cons.mpr (Or.inl (h.trans hc))))
    · exact List.mem_cons.mpr (Or.inr (List.mem_cons.mpr (Or.inr h)))

theorem le_foldl_max : ∀ (xs : List ℚ) (x : ℚ),
    x ≤ xs.foldl max x ∧ ∀ y ∈ xs, y ≤ xs.foldl max x := by
  intro xs
  induction xs with
  | nil => intro x; simp
  | cons y ys ih =>
    intro x
    obtain ⟨h1, h2⟩ := ih (max x y)
    rw [List.foldl_cons]
    refine ⟨le_trans (le_max_left x y) h1, ?_⟩
    intro z hz
    rcases List.mem_cons.mp hz with h | h
    · exact h.le.trans (le_trans (le_max_right x y) h1)
    · exact h2 z h

theorem listMax_mem {l : List ℚ} (h : l ≠ []) : listMax l ∈ l := by
  match l with
  | [] => exact absurd rfl h
  | x :: xs => exact foldl_max_mem xs x

theorem le_listMax {l : List ℚ} {y : ℚ} (hy : y ∈ l) : y ≤ listMax l := by
  match l with
  | [] => simp at hy
  | x :: xs =>
    rcases List.mem_cons.mp hy with h | h
    · exact h ▸ (le_foldl_max xs x).1
    · exact (le_foldl_max xs x).2 y h

theorem mem_sliceElems {X : Tensor} {i j ph pw : Nat} {e : ℚ} :
    e ∈ sliceElems X i j ph pw ↔
      ∃ a, a < ph ∧ ∃ b, b < pw ∧ e = get2 X (i + a) (j + b) := by
  simp only [sliceElems, List.mem_flatMap, List.mem_map, List.mem_range]
  constructor
  · rintro ⟨a, ha, b, hb, he⟩
    exact ⟨a, ha, b, hb, he.symm⟩
  · rintro ⟨a, ha, b, hb, he⟩
    exact ⟨a, ha, b, hb, he.symm⟩

theorem sliceElems_ne_nil {X : Tensor} {i j ph pw : Nat} (hph : 0 < ph) (hpw : 0 < pw) :
    sliceElems X i j ph pw ≠ [] := by
  apply List.ne_nil_of_mem (a := get2 X (i + 0) (j + 0))
  exact mem_sliceElems.mpr ⟨0, hph, 0, hpw, rfl⟩

theorem length_sliceElems (X : Tensor) (i j ph pw : Nat) :
    (sliceElems X i j ph pw).length = ph * pw := by
  simp [sliceElems, List.length_flatMap, Function.comp_def]

theorem sum_map_range (f : Nat → ℚ) : ∀ (n : Nat),
    ((List.range n).map f).sum = ∑ k ∈ Finset.range n, f k := by
  intro n
  induction n with
  | zero => simp
  | succ n ih => rw [List.range_succ, List.map_append, List.sum_append,
      Finset.sum_range_succ, ih]; simp

theorem sum_flatMap_eq {α : Type} (g : α → List ℚ) : ∀ (l : List α),
    (l.flatMap g).sum = (l.map (fun a => (g a).sum)).sum := by
  intro l
  induction l with
  | nil => simp
  | cons a l ih => simp [List.flatMap_cons, List.sum_append, ih]

theorem sum_sliceElems (X : Tensor) (i j ph pw : Nat) :
    (sliceElems X i j ph pw).sum =
      ∑ a ∈ Finset.range ph, ∑ b ∈ Finset.range pw, get2 X (i + a) (j + b) := by
  rw [sliceElems, sum_flatMap_eq]
  rw [show (fun a => ((List.range pw).map (fun b => get2 X (i + a) (j + b))).sum) =
      (fun a => ∑ b ∈ Finset.range pw, get2 X (i + a) (j + b)) from
    funext fun a => sum_map_range _ pw]
  exact sum_map_range _ ph

/-- The `pool2d` loop with the mode fixed to the string literal `"max"`
is the double fold that writes the window maximum at every position. -/
theorem pool2d_max_unfold (X : Tensor) (ph pw : Nat) :
    pool2d X (ph, pw) "max" =
      (List.range (rows X + 1 - ph)).foldl (fun Y i =>
        (List.range (cols X + 1 - pw)).foldl (fun Y j =>
          setAt2 Y i j (listMax (sliceElems X i j ph pw))) Y)
        (zeros2 (rows X + 1 - ph) (cols X + 1 - pw)) := by
  simp [pool2d, zeros2, rows, cols]

/-- The `pool2d` loop with the mode fixed to the string literal `"avg"`
is the double fold that writes the window mean at every position. -/
theorem pool2d_avg_unfold (X : Tensor) (ph pw : Nat) :
    pool2d X (ph, pw) "avg" =
      (List.range (rows X + 1 - ph)).foldl (fun Y i =>
        (List.range (cols X + 1 - pw)).foldl (fun Y j =>
          setAt2 Y i j
            ((sliceElems X i j ph pw).sum / ((sliceElems X i j ph pw).length : ℚ))) Y)
        (zeros2 (rows X + 1 - ph) (cols X + 1 - pw)) := by
  simp [pool2d, zeros2, rows, cols]

/-- Shape, buffer length, and entries of the double fold that underlies
`pool2d` in a recognised mode, with `valf i j` the written value. -/
theorem pool2d_fold_spec (valf : Nat → Nat → ℚ) (oh ow : Nat) :
    ((List.range oh).foldl (fun Y i =>
        (List.range ow).foldl (fun Y j => setAt2 Y i j (valf i j)) Y)
      (zeros2 oh ow)).shape = [oh, ow] ∧
    ((List.range oh).foldl (fun Y i =>
        (List.range ow).foldl (fun Y j => setAt2 Y i j (valf i j)) Y)
      (zeros2 oh ow)).data.length = oh * ow ∧
    ∀ i j, i < oh → j < ow →
      get2 ((List.range oh).foldl (fun Y i =>
          (List.range ow).foldl (fun Y j => setAt2 Y i j (valf i j)) Y)
        (zeros2 oh ow)) i j = valf i j := by
  have hzs : (zeros2 oh ow).shape = [oh, ow] := rfl
  have hzl : (zeros2 oh ow).data.length = oh * ow := by simp [zeros2]
  have hinner : ∀ i, ∀ Y : Tensor,
      ((List.range ow).foldl (fun Y j => setAt2 Y i j (valf i j)) Y).shape = Y.shape ∧
      ((List.range ow).foldl (fun Y j => setAt2 Y i j (valf i j)) Y).data.length =
        Y.data.length := by
    intro i Y
    exact foldl_tensor_invariant (fun Y x => ⟨shape_setAt2 .., length_setAt2 ..⟩) _ Y
  have hfold := foldl_tensor_invariant
    (f := fun Y i => (List.range ow).foldl (fun Y j => setAt2 Y i j (valf i j)) Y)
    (fun Y i => hinner i Y) (List.range oh) (zeros2 oh ow)
  refine ⟨hfold.1.trans hzs, hfold.2.trans hzl, ?_⟩
  intro i j hi hj
  rw [get2_foldl_outer valf (List.range oh) (zeros2 oh ow) hzs hzl
    (fun a ha => List.mem_range.mp ha) i j hi hj]
  simp [hi, get2_zeros2]

theorem foldl_id {α β : Type} (l : List β) (Y : α) : l.foldl (fun y _ => y) Y = Y := by
  induction l generalizing Y with
  | nil => rfl
  | cons b l ih => rw [List.foldl_cons]; exact ih Y

theorem pool2dChecked_some (X : Tensor) (ph pw : Nat) (mode : String)
    (h1 : ph ≤ rows X + 1) (h2 : pw ≤ cols X + 1) :
    pool2dChecked X (ph, pw) mode = some (pool2d X (ph, pw) mode) := by
  have hcond : 0 ≤ (rows X : ℤ) - ph + 1 ∧ 0 ≤ (cols X : ℤ) - pw + 1 := by
    constructor <;> omega
  have hr : ((rows X : ℤ) - ph + 1).toNat = rows X + 1 - ph := by omega
  have hc : ((cols X : ℤ) - pw + 1).toNat = cols X + 1 - pw := by omega
  simp only [pool2dChecked, zerosLib, if_pos hcond, hr, hc, pool2d]

/-- C1: for a matrix of shape `(m, n)` and a window `(p_h, p_w)` with
`1 ≤ p_h ≤ m`, `1 ≤ p_w ≤ n`, `pool2d X (p_h, p_w) "max"` has shape
`(m - p_h + 1, n - p_w + 1)`, and its entry at `(i, j)` is the maximum
of the elements of the window `X[i .. i+p_h-1, j .. j+p_w-1]` (it is
one of them and bounds them all); in particular on the notebook input
`[[0,1,2],[3,4,5],[6,7,8]]` with window `(2, 2)` it returns
`[[4,5],[7,8]]`. -/
theorem pool2d_max_is_window_max :
    (∀ (X : Tensor) (m n ph pw : Nat), X.shape = [m, n] → X.data.length = m * n →
      1 ≤ ph → ph ≤ m → 1 ≤ pw → pw ≤ n →
      (pool2d X (ph, pw) "max").shape = [m - ph + 1, n - pw + 1] ∧
      (pool2d X (ph, pw) "max").data.length = (m - ph + 1) * (n - pw + 1) ∧
      ∀ i j, i < m - ph + 1 → j < n - pw + 1 →
        (∃ a b, a < ph ∧ b < pw ∧
          get2 (pool2d X (ph, pw) "max") i j = get2 X (i + a) (j + b)) ∧
        (∀ a b, a < ph → b < pw →
          get2 X (i + a) (j + b) ≤ get2 (pool2d X (ph, pw) "max") i j)) ∧
    pool2d X3 (2, 2) "max" = ⟨[2, 2], [4, 5, 7, 8]⟩ := by
  constructor
  · intro X m n ph pw hs hlen hph1 hphm hpw1 hpwn
    have hoh : rows X + 1 - ph = m - ph + 1 := by rw [rows_eq hs]; omega
    have how : cols X + 1 - pw = n - pw + 1 := by rw [cols_eq hs]; omega
    rw [pool2d_max_unfold, hoh, how]
    obtain ⟨hshape, hlength, hentry⟩ :=
      pool2d_fold_spec (fun i j => listMax (sliceElems X i j ph pw)) (m - ph + 1) (n - pw + 1)
    refine ⟨hshape, hlength, ?_⟩
    intro i j hi hj
    rw [hentry i j hi hj]
    have hne : sliceElems X i j ph pw ≠ [] := sliceElems_ne_nil (by omega) (by omega)
    constructor
    · obtain ⟨a, ha, b, hb, he⟩ := mem_sliceElems.mp (listMax_mem hne)
      exact ⟨a, b, ha, hb, he⟩
    · intro a b ha hb
      exact le_listMax (mem_sliceElems.mpr ⟨a, ha, b, hb, rfl⟩)
  · decide

/-- Witness for C1 at the notebook input: the hypotheses hold for
`X3 = [[0,1,2],[3,4,5],[6,7,8]]` with window `(2, 2)` and the maximum
property follows at position `(0, 0)`. -/
theorem pool2d_max_is_window_max_witness :
    (X3.shape = [3, 3] ∧ X3.data.length = 3 * 3 ∧ 1 ≤ 2 ∧ 2 ≤ 3) ∧
    ((pool2d X3 (2, 2) "max").shape = [3 - 2 + 1, 3 - 2 + 1] ∧
      (pool2d X3 (2, 2) "max").data.length = (3 - 2 + 1) * (3 - 2 + 1) ∧
      ∀ i j, i < 3 - 2 + 1 → j < 3 - 2 + 1 →
        (∃ a b, a < 2 ∧ b < 2 ∧
          get2 (pool2d X3 (2, 2) "max") i j = get2 X3 (i + a) (j + b)) ∧
        (∀ a b, a < 2 → b < 2 →
          get2 X3 (i + a) (j + b) ≤ get2 (pool2d X3 (2, 2) "max") i j)) :=
  ⟨by decide,
    pool2d_max_is_window_max.1 X3 3 3 2 2 (by decide) (by decide) (by decide) (by decide)
      (by decide) (by decide)⟩

/-- C2: for a matrix of shape `(m, n)` and a window `(p_h, p_w)` with
`1 ≤ p_h ≤ m`, `1 ≤ p_w ≤ n`, `pool2d X (p_h, p_w) "avg"` has shape
`(m - p_h + 1, n - p_w + 1)` and its entry at `(i, j)` is the arithmetic
mean, sum divided by `p_h * p_w`, of the elements of the window
`X[i .. i+p_h-1, j .. j+p_w-1]`. -/
theorem pool2d_avg_is_window_mean :
    ∀ (X : Tensor) (m n ph pw : Nat), X.shape = [m, n] → X.data.length = m * n →
      1 ≤ ph → ph ≤ m → 1 ≤ pw → pw ≤ n →
      (pool2d X (ph, pw) "avg").shape = [m - ph + 1, n - pw + 1] ∧
      (pool2d X (ph, pw) "avg").data.length = (m - ph + 1) * (n - pw + 1) ∧
      ∀ i j, i < m - ph + 1 → j < n - pw + 1 →
        get2 (pool2d X (ph, pw) "avg") i j =
          (∑ a ∈ Finset.range ph, ∑ b ∈ Finset.range pw, get2 X (i + a) (j + b)) /
            ((ph : ℚ) * (pw : ℚ)) := by
  intro X m n ph pw hs hlen hph1 hphm hpw1 hpwn
  have hoh : rows X + 1 - ph = m - ph + 1 := by rw [rows_eq hs]; omega
  have how : cols X + 1 - pw = n - pw + 1 := by rw [cols_eq hs]; omega
  rw [pool2d_avg_unfold, hoh, how]
  obtain ⟨hshape, hlength, hentry⟩ :=
    pool2d_fold_spec
      (fun i j => (sliceElems X i j ph pw).sum / ((sliceElems X i j ph pw).length : ℚ))
      (m - ph + 1) (n - pw + 1)
  refine ⟨hshape, hlength, ?_⟩
  intro i j hi hj
  rw [hentry i j hi hj, sum_sliceElems, length_sliceElems]
  push_cast
  rfl

/-- Witness for C2: the hypotheses hold for the notebook input `X3` with
window `(2, 2)`; the conclusion is the instantiated mean property. -/
theorem pool2d_avg_is_window_mean_witness :
    (X3.shape = [3, 3] ∧ X3.data.length = 3 * 3 ∧ 1 ≤ 2 ∧ 2 ≤ 3) ∧
    ((pool2d X3 (2, 2) "avg").shape = [3 - 2 + 1, 3 - 2 + 1] ∧
      (pool2d X3 (2, 2) "avg").data.length = (3 - 2 + 1) * (3 - 2 + 1) ∧
      ∀ i j, i < 3 - 2 + 1 → j < 3 - 2 + 1 →
        get2 (pool2d X3 (2, 2) "avg") i j =
          (∑ a ∈ Finset.range 2, ∑ b ∈ Finset.range 2, get2 X3 (i + a) (j + b)) /
            ((2 : ℚ) * (2 : ℚ))) :=
  ⟨by decide,
    pool2d_avg_is_window_mean X3 3 3 2 2 (by decide) (by decide) (by decide) (by decide)
      (by decide) (by decide)⟩

/-- C8: for any mode string other than `"max"` and `"avg"`, neither
branch of the if/elif in the loop body executes, so `pool2d` silently
returns the all-zeros matrix of shape `(m - p_h + 1, n - p_w + 1)`, and
no error arises (the checked variant succeeds). -/
theorem pool2d_unknown_mode_zeros :
    ∀ (X : Tensor) (m n ph pw : Nat) (mode : String), X.shape = [m, n] →
      ph ≤ m → pw ≤ n → mode ≠ "max" → mode ≠ "avg" →
      pool2d X (ph, pw) mode = zeros2 (m - ph + 1) (n - pw + 1) ∧
      (∀ i j, get2 (pool2d X (ph, pw) mode) i j = 0) ∧
      pool2dChecked X (ph, pw) mode = some (pool2d X (ph, pw) mode) := by
  intro X m n ph pw mode hs hphm hpwn hmax havg
  have hz : pool2d X (ph, pw) mode = zeros2 (m - ph + 1) (n - pw + 1) := by
    have hoh : rows X + 1 - ph = m - ph + 1 := by rw [rows_eq hs]; omega
    have how : cols X + 1 - pw = n - pw + 1 := by rw [cols_eq hs]; omega
    simp only [pool2d, if_neg hmax, if_neg havg, hoh, how, foldl_id]
  refine ⟨hz, ?_, ?_⟩
  · intro i j
    rw [hz]
    exact get2_zeros2 ..
  · exact pool2dChecked_some X ph pw mode (by rw [rows_eq hs]; omega)
      (by rw [cols_eq hs]; omega)

/-- Witness for C8 at the notebook input with the unrecognised mode
string `"median"`. -/
theorem pool2d_unknown_mode_zeros_witness :
    (X3.shape = [3, 3] ∧ 2 ≤ 3 ∧ "median" ≠ "max" ∧ "median" ≠ "avg") ∧
    (pool2d X3 (2, 2) "median" = zeros2 (3 - 2 + 1) (3 - 2 + 1) ∧
      (∀ i j, get2 (pool2d X3 (2, 2) "median") i j = 0) ∧
      pool2dChecked X3 (2, 2) "median" = some (pool2d X3 (2, 2) "median")) :=
  ⟨by decide,
    pool2d_unknown_mode_zeros X3 3 3 2 2 "median" (by decide) (by decide) (by decide)
      (by decide) (by decide)⟩

/-- C7: `pool2d` performs no input validation and catches no exception:
with the library boundary made explicit, the computation fails exactly
when the underlying library `zeros` call fails (a window extending more
than one past the input extent makes the Python shape arithmetic
negative), and whenever the library calls succeed the result is the
plain loop value, with no error originating in the repository code. -/
theorem pool2d_error_boundary :
    ∀ (X : Tensor) (m n ph pw : Nat) (mode : String), X.shape = [m, n] →
      (pool2dChecked X (ph, pw) mode = none ↔ m + 1 < ph ∨ n + 1 < pw) ∧
      (∀ Y, pool2dChecked X (ph, pw) mode = some Y → Y = pool2d X (ph, pw) mode) := by
  intro X m n ph pw mode hs
  have hr : rows X = m := rows_eq hs
  have hc : cols X = n := cols_eq hs
  by_cases hcond : ph ≤ m + 1 ∧ pw ≤ n + 1
  · have hsome := pool2dChecked_some X ph pw mode (by omega) (by omega)
    rw [hsome]
    constructor
    · simp
      omega
    · intro Y hY
      exact (Option.some_injective _ hY).symm
  · have hnone : pool2dChecked X (ph, pw) mode = none := by
      simp only [pool2dChecked, zerosLib, hr, hc]
      rw [if_neg (by omega)]
    rw [hnone]
    constructor
    · simp
      omega
    · intro Y hY
      simp at hY

/-- Witness for C7 at the notebook input `X3` in mode `"max"`: the
checked computation does not fail (the window fits) and agrees with the
plain loop. -/
theorem pool2d_error_boundary_witness :
    X3.shape = [3, 3] ∧
    ((pool2dChecked X3 (2, 2) "max" = none ↔ 3 + 1 < 2 ∨ 3 + 1 < 2) ∧
      ∀ Y, pool2dChecked X3 (2, 2) "max" = some Y → Y = pool2d X3 (2, 2) "max") :=
  ⟨by decide, pool2d_error_boundary X3 3 3 2 2 "max" (by decide)⟩

/-- The library `reshape`: it keeps the flat row-major buffer and only
replaces the shape, failing when the element counts disagree. -/
def reshape (t : Tensor) (s : List Nat) : Option Tensor :=
  if s.prod = t.data.length then some ⟨s, t.data⟩ else none

/-- The notebook vector `x = jnp.arange(n)`. -/
def arange (n : Nat) : Tensor := ⟨[n], (List.range n).map (fun k => (k : ℚ))⟩

/-- C3: reshaping a size-`n` tensor to `(h, w)` with `h * w = n`
succeeds, preserves the element count, and lays the elements out in
row-major order: `X[i, j] = x[i * w + j]`. -/
theorem reshape_row_major :
    ∀ (t : Tensor) (n h w : Nat), t.data.length = n → h * w = n →
      ∃ X, reshape t [h, w] = some X ∧
        X.data.length = n ∧ X.shape = [h, w] ∧ X.data = t.data ∧
        ∀ i j, i < h → j < w → getM X [i, j] = t.data.getD (i * w + j) 0 := by
  intro t n h w hlen hmul
  refine ⟨⟨[h, w], t.data⟩, ?_, hlen, rfl, rfl, ?_⟩
  · rw [reshape]
    rw [if_pos (by simp [hlen, ← hmul])]
  · intro i j hi hj
    simp only [getM, flatIndex, List.zip, List.zipWith]
    norm_num

/-- Witness for C3: the notebook example, `x = jnp.arange(12)` reshaped
to `(3, 4)`; in particular the instantiated conclusion gives
`X[0, 3] = x[3]`. -/
theorem reshape_row_major_witness :
    ((arange 12).data.length = 12 ∧ 3 * 4 = 12) ∧
    (∃ X, reshape (arange 12) [3, 4] = some X ∧
      X.data.length = 12 ∧ X.shape = [3, 4] ∧ X.data = (arange 12).data ∧
      ∀ i j, i < 3 → j < 4 → getM X [i, j] = (arange 12).data.getD (i * 4 + j) 0) :=
  ⟨by decide, reshape_row_major (arange 12) 12 3 4 (by decide) (by decide)⟩

/-- The shape-inference step of `reshape` when shape components are given
as Python integers: a `-1` component is replaced by the quotient of the
element count by the product of the remaining components (the library
rejects more than one `-1`, other negative entries, and inexact
division). -/
def inferDims (n : Nat) (dims : List Int) : Option (List Nat) :=
  if ∀ d ∈ dims, d = -1 ∨ 0 ≤ d then
    if dims.count (-1) = 0 then
      some (dims.map Int.toNat)
    else if dims.count (-1) = 1 then
      if 0 < ((dims.filter (fun d => d ≠ -1)).map Int.toNat).prod ∧
          ((dims.filter (fun d => d ≠ -1)).map Int.toNat).prod ∣ n then
        some (dims.map (fun d =>
          if d = -1 then n / ((dims.filter (fun d => d ≠ -1)).map Int.toNat).prod
          else d.toNat))
      else none
    else none
  else none

/-- The library `reshape` called with possibly `-1` shape components:
infer the concrete shape, then reshape. -/
def reshapeI (t : Tensor) (dims : List Int) : Option Tensor :=
  match inferDims t.data.length dims with
  | none => none
  | some s => reshape t s

/-- C10: for a size-`n` tensor and positive `h`, `w` with `h * w = n`,
`reshape` with one component given as `-1` equals `reshape` with that
component replaced by the exact quotient: `x.reshape(-1, w)` and
`x.reshape(h, -1)` both equal `x.reshape(h, w)`. -/
theorem reshape_infer_neg1 :
    ∀ (t : Tensor) (n h w : Nat), t.data.length = n → 0 < h → 0 < w → h * w = n →
      reshapeI t [-1, (w : Int)] = reshapeI t [(h : Int), (w : Int)] ∧
      reshapeI t [(h : Int), -1] = reshapeI t [(h : Int), (w : Int)] ∧
      reshapeI t [(h : Int), (w : Int)] = some ⟨[h, w], t.data⟩ := by
  intro t n h w hlen hh hw hmul
  have hwne : (w : Int) ≠ -1 := by omega
  have hhne : (h : Int) ≠ -1 := by omega
  have hdirect : inferDims t.data.length [(h : Int), (w : Int)] = some [h, w] := by
    rw [inferDims, if_pos (by intro d hd; simp at hd; rcases hd with h1 | h1 <;> omega)]
    rw [if_pos (by simp [List.count_cons, hwne, hhne])]
    simp
  have hinfer1 : inferDims t.data.length [-1, (w : Int)] = some [h, w] := by
    rw [inferDims, if_pos (by intro d hd; simp at hd; rcases hd with h1 | h1 <;> omega)]
    rw [if_neg (by simp [List.count_cons, hwne])]
    rw [if_pos (by simp [List.count_cons, hwne])]
    have hfil : ([-1, (w : Int)].filter (fun d => d ≠ -1)) = [(w : Int)] := by
      simp [List.filter, hwne]
    rw [hfil]
    have hprod : ([(w : Int)].map Int.toNat).prod = w := by simp
    rw [hprod, if_pos ⟨hw, by rw [hlen, ← hmul]; exact dvd_mul_left w h⟩]
    have hdiv : t.data.length / w = h := by
      rw [hlen, ← hmul, Nat.mul_div_cancel h hw]
    simp [hwne, hdiv]
  have hinfer2 : inferDims t.data.length [(h : Int), -1] = some [h, w] := by
    rw [inferDims, if_pos (by intro d hd; simp at hd; rcases hd with h1 | h1 <;> omega)]
    rw [if_neg (by simp [List.count_cons, hhne])]
    rw [if_pos (by simp [List.count_cons, hhne])]
    have hfil : ([(h : Int), -1].filter (fun d => d ≠ -1)) = [(h : Int)] := by
      simp [List.filter, hhne]
    rw [hfil]
    have hprod : ([(h : Int)].map Int.toNat).prod = h := by simp
    rw [hprod, if_pos ⟨hh, by rw [hlen, ← hmul]; exact dvd_mul_right h w⟩]
    have hdiv : t.data.length / h = w := by
      rw [hlen, ← hmul, Nat.mul_div_cancel_left w hh]
    simp [hhne, hdiv]
  have hres : reshape t [h, w] = some ⟨[h, w], t.data⟩ := by
    rw [reshape, if_pos (by simp [hlen, ← hmul])]
  refine ⟨?_, ?_, ?_⟩
  · rw [reshapeI, reshapeI, hinfer1, hdirect]
  · rw [reshapeI, reshapeI, hinfer2, hdirect]
  · rw [reshapeI, hdirect]
    exact hres

/-- Witness for C10: the notebook example, a size-12 vector reshaped via
`(-1, 4)`, `(3, -1)`, and `(3, 4)`. -/
theorem reshape_infer_neg1_witness :
    ((arange 12).data.length = 12 ∧ 0 < 3 ∧ 0 < 4 ∧ 3 * 4 = 12) ∧
    (reshapeI (arange 12) [-1, 4] = reshapeI (arange 12) [3, 4] ∧
      reshapeI (arange 12) [3, -1] = reshapeI (arange 12) [3, 4] ∧
      reshapeI (arange 12) [3, 4] = some ⟨[3, 4], (arange 12).data⟩) :=
  ⟨by decide,
    reshape_infer_neg1 (arange 12) 12 3 4 (by decide) (by decide) (by decide) (by decide)⟩

theorem getD_drop (l : List ℚ) (i j : Nat) : (l.drop i).getD j 0 = l.getD (i + j) 0 := by
  by_cases h : j < (l.drop i).length
  · have h2 : i + j < l.length := by simp at h; omega
    rw [List.getD_eq_getElem _ _ h, List.getD_eq_getElem _ _ h2]
    exact List.getElem_drop ..
  · have h2 : l.length ≤ i + j := by simp at h; omega
    rw [List.getD_eq_default _ _ (Nat.le_of_not_lt h), List.getD_eq_default _ _ h2]

/-- C9: the functional update `X.at[i, j].set(v)` returns a new tensor
whose entry at `(i, j)` is `v` and whose other entries equal those of
`X`, with shape and buffer length unchanged; the slice update
`X.at[:r, :].set(w)` likewise sets the rows below `r` and leaves every
row at `r` or beyond unchanged.  `X` itself is a value in this pure
embedding, so the original array is untouched by construction. -/
theorem at_set_point_and_slice_frame :
    ∀ (X : Tensor) (m n i j r : Nat) (v w : ℚ), X.shape = [m, n] → X.data.length = m * n →
      i < m → j < n →
      (get2 (setAt2 X i j v) i j = v ∧
        (∀ k l, k < m → l < n → (k, l) ≠ (i, j) → get2 (setAt2 X i j v) k l = get2 X k l) ∧
        (setAt2 X i j v).shape = X.shape ∧
        (setAt2 X i j v).data.length = X.data.length) ∧
      ((∀ k l, k < m → l < n → k < r → get2 (setRows X r w) k l = w) ∧
        (∀ k l, k < m → l < n → r ≤ k → get2 (setRows X r w) k l = get2 X k l) ∧
        (setRows X r w).shape = X.shape) := by
  intro X m n i j r v w hs hlen hi hj
  have hc : cols X = n := cols_eq hs
  have hsetshape : (setRows X r w).shape = X.shape := rfl
  have hgetRows : ∀ k l : Nat, get2 (setRows X r w) k l =
      (List.replicate (min (r * n) (m * n)) w ++ X.data.drop (r * n)).getD (k * n + l) 0 := by
    intro k l
    have h0 : get2 (setRows X r w) k l =
        (List.replicate (min (r * cols X) X.data.length) w ++ X.data.drop (r * cols X)).getD
          (k * cols X + l) 0 := rfl
    rw [h0, hc, hlen]
  refine ⟨⟨get2_setAt2_self hs hlen hi hj v, ?_, shape_setAt2 .., length_setAt2 ..⟩,
    ?_, ?_, hsetshape⟩
  · intro k l hk hl hne
    exact get2_setAt2_ne hs hj hl hne v
  · intro k l hk hl hkr
    rw [hgetRows k l]
    have hlt1 : k * n + l < r * n := flat_lt hkr hl
    have hlt2 : k * n + l < m * n := flat_lt hk hl
    have hltmin : k * n + l < min (r * n) (m * n) := lt_min hlt1 hlt2
    rw [List.getD_append _ _ _ _ (by simpa using hltmin)]
    rw [List.getD_eq_getElem _ _ (by simpa using hltmin)]
    exact List.getElem_replicate ..
  · intro k l hk hl hrk
    rw [hgetRows k l]
    have hmin : min (r * n) (m * n) = r * n :=
      Nat.min_eq_left (Nat.mul_le_mul_right n (by omega))
    have hge : r * n ≤ k * n + l :=
      le_trans (Nat.mul_le_mul_right n hrk) (Nat.le_add_right _ _)
    rw [List.getD_append_right _ _ _ _ (by simpa [hmin] using hge)]
    simp only [List.length_replicate, hmin]
    rw [getD_drop]
    have : r * n + (k * n + l - r * n) = k * n + l := by omega
    rw [this, get2, hc]

/-- Witness for C9 at the notebook input: `X = jnp.arange(12)` reshaped
to `(3, 4)`, point update at `(1, 2)` with value `17`, slice update of
the first two rows with value `12`. -/
theorem at_set_point_and_slice_frame_witness :
    (Tensor.mk [3, 4] (arange 12).data).shape = [3, 4] ∧
    (Tensor.mk [3, 4] (arange 12).data).data.length = 3 * 4 ∧ 1 < 3 ∧ 2 < 4 ∧
    ((get2 (setAt2 (Tensor.mk [3, 4] (arange 12).data) 1 2 17) 1 2 = 17 ∧
        (∀ k l, k < 3 → l < 4 → (k, l) ≠ (1, 2) →
          get2 (setAt2 (Tensor.mk [3, 4] (arange 12).data) 1 2 17) k l =
            get2 (Tensor.mk [3, 4] (arange 12).data) k l) ∧
        (setAt2 (Tensor.mk [3, 4] (arange 12).data) 1 2 17).shape =
          (Tensor.mk [3, 4] (arange 12).data).shape ∧
        (setAt2 (Tensor.mk [3, 4] (arange 12).data) 1 2 17).data.length =
          (Tensor.mk [3, 4] (arange 12).data).data.length) ∧
      ((∀ k l, k < 3 → l < 4 → k < 2 →
          get2 (setRows (Tensor.mk [3, 4] (arange 12).data) 2 12) k l = 12) ∧
        (∀ k l, k < 3 → l < 4 → 2 ≤ k →
          get2 (setRows (Tensor.mk [3, 4] (arange 12).data) 2 12) k l =
            get2 (Tensor.mk [3, 4] (arange 12).data) k l) ∧
        (setRows (Tensor.mk [3, 4] (arange 12).data) 2 12).shape =
          (Tensor.mk [3, 4] (arange 12).data).shape)) :=
  ⟨by decide, by decide, by decide, by decide,
    at_set_point_and_slice_frame (Tensor.mk [3, 4] (arange 12).data) 3 4 1 2 2 17 12
      (by decide) (by decide) (by decide) (by decide)⟩

/-- Modelled from the spec: the mxnet `init.Constant(c)` initializer used
by `net.initialize(init=init.Constant(1), force_reinit=True)` is library
code not present under `src/`; the spec says parameter initialization
"sets weight tensors to values drawn from a uniform, normal, or constant
distribution".  `constantInit` fills one weight tensor of the given
shape with the constant, and `initializeConstant` reinitializes every
layer of a network described by its list of weight shapes. -/
def constantInit (c : ℚ) (shape : List Nat) : Tensor :=
  ⟨shape, List.replicate shape.prod c⟩

/-- Modelled from the spec: applying the constant initializer to every
layer of the network. -/
def initializeConstant (c : ℚ) (shapes : List (List Nat)) : List Tensor :=
  shapes.map (constantInit c)

/-- C5: after initialization with the constant initializer, every element
of every weight tensor of the network equals the given constant. -/
theorem constant_init_sets_every_weight :
    ∀ (c : ℚ) (shapes : List (List Nat)) (W : Tensor), W ∈ initializeConstant c shapes →
      ∀ x ∈ W.data, x = c := by
  intro c shapes W hW x hx
  obtain ⟨s, hsmem, hWs⟩ := List.mem_map.mp hW
  rw [← hWs] at hx
  exact List.eq_of_mem_replicate hx

/-- Witness for C5 on the notebook network (an (8, 4) dense layer
followed by a (1, 8) dense layer) with constant 1: the first weight
tensor is a member of the initialized network and its head element is a
member of its buffer, so it equals 1. -/
theorem constant_init_sets_every_weight_witness :
    (constantInit 1 [8, 4] ∈ initializeConstant 1 [[8, 4], [1, 8]] ∧
      (1 : ℚ) ∈ (constantInit 1 [8, 4]).data) ∧ (1 : ℚ) = 1 :=
  ⟨⟨by decide, by decide⟩,
    constant_init_sets_every_weight 1 [[8, 4], [1, 8]] (constantInit 1 [8, 4]) (by decide)
      1 (by decide)⟩

/-- Translation of the body of the notebook custom initializer

`class MyInit(init.Initializer):`
`    def _init_weight(self, name, data):`
`        data[:] = np.random.uniform(-10, 10, data.shape)`
`        data *= np.abs(data) >= 5`

the random draw is the input list `us` (one uniform sample from
`[-10, 10]` per element), and the boolean mask multiplies each element
by `1` when its absolute value is at least `5` and by `0` otherwise. -/
def myInitWeight (us : List ℚ) : List ℚ :=
  us.map (fun u => u * (if 5 ≤ |u| then 1 else 0))

/-- C6: `MyInit._init_weight` assigns each element the value
`u * [|u| >= 5]` where `u` is the corresponding uniform sample; hence
when every sample lies in `[-10, 10]`, every resulting weight element is
either exactly `0` or has absolute value in `[5, 10]`. -/
theorem myinit_weight_masked_uniform :
    ∀ (us : List ℚ), (∀ u ∈ us, -10 ≤ u ∧ u ≤ 10) →
      (myInitWeight us).length = us.length ∧
      (∀ k, k < us.length →
        (myInitWeight us).getD k 0 =
          us.getD k 0 * (if 5 ≤ |us.getD k 0| then 1 else 0)) ∧
      (∀ x ∈ myInitWeight us, x = 0 ∨ (5 ≤ |x| ∧ |x| ≤ 10)) := by
  intro us hus
  refine ⟨List.length_map .., ?_, ?_⟩
  · intro k hk
    simp only [myInitWeight]
    rw [List.getD_eq_getElem _ _ (by simpa using hk), List.getD_eq_getElem _ _ hk,
      List.getElem_map]
  · intro x hx
    obtain ⟨u, hu, hux⟩ := List.mem_map.mp hx
    obtain ⟨h1, h2⟩ := hus u hu
    by_cases h5 : 5 ≤ |u|
    · right
      rw [← hux, if_pos h5, mul_one]
      exact ⟨h5, abs_le.mpr ⟨h1, h2⟩⟩
    · left
      rw [← hux, if_neg h5, mul_zero]

/-- Witness for C6 on the first row printed by the notebook,
`[-6.07, 8.99, -0., 0.]` rounded here to in-range rationals: samples
`[-6, 9, -3, 2]` lie in `[-10, 10]` and the masked result satisfies the
zero-or-large dichotomy. -/
theorem myinit_weight_masked_uniform_witness :
    (∀ u ∈ ([-6, 9, -3, 2] : List ℚ), -10 ≤ u ∧ u ≤ 10) ∧
    ((myInitWeight [-6, 9, -3, 2]).length = ([-6, 9, -3, 2] : List ℚ).length ∧
      (∀ k, k < ([-6, 9, -3, 2] : List ℚ).length →
        (myInitWeight [-6, 9, -3, 2]).getD k 0 =
          ([-6, 9, -3, 2] : List ℚ).getD k 0 *
            (if 5 ≤ |([-6, 9, -3, 2] : List ℚ).getD k 0| then 1 else 0)) ∧
      (∀ x ∈ myInitWeight [-6, 9, -3, 2], x = 0 ∨ (5 ≤ |x| ∧ |x| ≤ 10))) :=
  ⟨by decide, myinit_weight_masked_uniform [-6, 9, -3, 2] (by decide)⟩

/-- Left-pad a shape with size-1 dimensions up to rank `r` (step (i) of
the broadcasting rule described in the ndarray notebook). -/
def padShape (r : Nat) (s : List Nat) : List Nat :=
  List.replicate (r - s.length) 1 ++ s

/-- The broadcast result shape of two shapes: pad the shorter with
leading 1s, require each aligned pair of extents to agree or contain a
1, and take the pairwise maximum; incompatible shapes fail. -/
def broadcastShapes (s1 s2 : List Nat) : Option (List Nat) :=
  let r := max s1.length s2.length
  let p1 := padShape r s1
  let p2 := padShape r s2
  if ∀ q ∈ List.zip p1 p2, q.1 = q.2 ∨ q.1 = 1 ∨ q.2 = 1 then
    some ((List.zip p1 p2).map (fun q => max q.1 q.2))
  else none

/-- Project a result multi-index back onto an operand: drop the leading
coordinates the operand does not have, and clamp the coordinate to 0
along each size-1 axis (where the operand is replicated). -/
def projIdx (shape idx : List Nat) : List Nat :=
  List.zipWith (fun d x => if d = 1 then 0 else x) shape (idx.drop (idx.length - shape.length))

/-- All multi-indices of a shape in row-major order. -/
def indicesOf : List Nat → List (List Nat)
  | [] => [[]]
  | d :: ds => (List.range d).flatMap (fun i => (indicesOf ds).map (fun rest => i :: rest))

/-- Step (i) of the notebook broadcasting procedure: expand a tensor to
the result shape `s` by copying elements along its size-1 axes. -/
def expand (t : Tensor) (s : List Nat) : Tensor :=
  ⟨s, (indicesOf s).map (fun idx => getM t (projIdx t.shape idx))⟩

/-- Step (ii): an elementwise binary operation on two tensors of equal
shape. -/
def elementwise (f : ℚ → ℚ → ℚ) (a b : Tensor) : Option Tensor :=
  if a.shape = b.shape then some ⟨a.shape, List.zipWith f a.data b.data⟩ else none

/-- An elementwise binary library operation under broadcasting, as the
library implements it: each output entry reads both operands through the
index projection, with no intermediate materialized expansion. -/
def bcOp (f : ℚ → ℚ → ℚ) (a b : Tensor) : Option Tensor :=
  match broadcastShapes a.shape b.shape with
  | none => none
  | some s =>
    some ⟨s, (indicesOf s).map (fun idx =>
      f (getM a (projIdx a.shape idx)) (getM b (projIdx b.shape idx)))⟩

theorem zipWith_map_same {α : Type} (f : ℚ → ℚ → ℚ) (g h : α → ℚ) :
    ∀ (l : List α), List.zipWith f (l.map g) (l.map h) = l.map (fun x => f (g x) (h x)) := by
  intro l
  induction l with
  | nil => rfl
  | cons x l ih => simp [ih]

theorem flatMap_single {α β : Type} (g : α → β) :
    ∀ (l : List α), l.flatMap (fun x => [g x]) = l.map g := by
  intro l
  induction l with
  | nil => rfl
  | cons x l ih => simp [List.flatMap_cons, ih]

theorem indicesOf_single (n : Nat) :
    indicesOf [n] = (List.range n).map (fun j => [j]) := by
  rw [indicesOf]
  have h : (fun i => (indicesOf []).map (fun rest => i :: rest)) =
      (fun i : Nat => [[i]]) := by
    funext i
    rfl
  rw [h]
  exact flatMap_single _ _

theorem indicesOf_pair (m n : Nat) :
    indicesOf [m, n] =
      (List.range m).flatMap (fun i => (List.range n).map (fun j => [i, j])) := by
  rw [indicesOf, indicesOf_single]
  congr 1
  funext i
  rw [List.map_map]
  rfl

theorem len_flatMap_range {α : Type} (g : Nat → Nat → α) (m n : Nat) :
    ((List.range m).flatMap (fun a => (List.range n).map (g a))).length = m * n := by
  simp [List.length_flatMap, Function.comp_def]

theorem getD_flatMap_range {α : Type} (d : α) (g : Nat → Nat → α) :
    ∀ (m n i j : Nat), i < m → j < n →
      ((List.range m).flatMap (fun a => (List.range n).map (g a))).getD (i * n + j) d =
        g i j := by
  intro m
  induction m with
  | zero => intro n i j hi; omega
  | succ m ih =>
    intro n i j hi hj
    rw [List.range_succ, List.flatMap_append]
    rcases Nat.lt_or_ge i m with him | him
    ·
      rw [List.getD_append _ _ _ _ (by rw [len_flatMap_range]; exact flat_lt him hj)]
      exact ih n i j him hj
    ·
      have hieq : i = m := by omega
      subst hieq
      rw [List.getD_append_right _ _ _ _
        (by rw [len_flatMap_range]; exact Nat.le_add_right _ _)]
      rw [len_flatMap_range]
      have hsub : i * n + j - i * n = j := by omega
      rw [hsub, List.flatMap_singleton]
      rw [List.getD_eq_getElem _ _ (by simpa using hj), List.getElem_map,
        List.getElem_range]

/-- C4: a broadcast elementwise operation equals the operation applied
after expanding both operands to the common broadcast shape (pad missing
leading dimensions with size 1, then replicate size-1 dimensions); in
particular for `a` of shape `(3, 1)` and `b` of shape `(1, 2)` the sum
`a + b` has shape `(3, 2)` with `(a + b)[i, j] = a[i, 0] + b[0, j]`. -/
theorem broadcast_is_expand_then_elementwise :
    (∀ (f : ℚ → ℚ → ℚ) (a b : Tensor) (s : List Nat),
      broadcastShapes a.shape b.shape = some s →
      bcOp f a b = elementwise f (expand a s) (expand b s)) ∧
    (∀ (a b : Tensor), a.shape = [3, 1] → b.shape = [1, 2] →
      ∃ c, bcOp (fun x y => x + y) a b = some c ∧ c.shape = [3, 2] ∧
        ∀ i j, i < 3 → j < 2 → get2 c i j = get2 a i 0 + get2 b 0 j) := by
  constructor
  · intro f a b s hbc
    simp only [bcOp, hbc, elementwise, expand, if_pos]
    rw [zipWith_map_same]
  · intro a b hsa hsb
    have hbc : broadcastShapes [3, 1] [1, 2] = some [3, 2] := by decide
    refine ⟨⟨[3, 2], (indicesOf [3, 2]).map (fun idx =>
      getM a (projIdx a.shape idx) + getM b (projIdx b.shape idx))⟩, ?_, rfl, ?_⟩
    · rw [bcOp, hsa, hsb, hbc]
    · intro i j hi hj
      have hdata : (indicesOf [3, 2]).map (fun idx =>
          getM a (projIdx a.shape idx) + getM b (projIdx b.shape idx)) =
          (List.range 3).flatMap (fun x => (List.range 2).map (fun y =>
            getM a (projIdx a.shape [x, y]) + getM b (projIdx b.shape [x, y]))) := by
        rw [indicesOf_pair, List.map_flatMap]
        simp only [List.map_map, Function.comp_def]
      have hcol : cols ⟨[3, 2], (indicesOf [3, 2]).map (fun idx =>
          getM a (projIdx a.shape idx) + getM b (projIdx b.shape idx))⟩ = 2 := rfl
      rw [get2, hcol, hdata]
      rw [getD_flatMap_range 0 _ 3 2 i j hi hj]
      have hpa : projIdx a.shape [i, j] = [i, 0] := by
        rw [hsa, projIdx]
        norm_num
      have hpb : projIdx b.shape [i, j] = [0, j] := by
        rw [hsb, projIdx]
        norm_num
      rw [hpa, hpb]
      have hga : getM a [i, 0] = get2 a i 0 := by
        rw [getM, get2, cols_eq hsa, hsa, flatIndex]
        norm_num
      have hgb : getM b [0, j] = get2 b 0 j := by
        rw [getM, get2, cols_eq hsb, hsb, flatIndex]
        norm_num
      rw [hga, hgb]

/-- Witness for C4: at the notebook operands `a = arange(3).reshape(3,1)`
and `b = arange(2).reshape(1,2)` the hypotheses of both parts hold, so
`a + b` broadcasts to shape `(3, 2)` with the replicated-entry formula. -/
theorem broadcast_is_expand_then_elementwise_witness :
    ((Tensor.mk [3, 1] [0, 1, 2]).shape = [3, 1] ∧
      (Tensor.mk [1, 2] [0, 1]).shape = [1, 2]) ∧
    (∃ c, bcOp (fun x y => x + y) (Tensor.mk [3, 1] [0, 1, 2]) (Tensor.mk [1, 2] [0, 1]) =
        some c ∧ c.shape = [3, 2] ∧
      ∀ i j, i < 3 → j < 2 →
        get2 c i j = get2 (Tensor.mk [3, 1] [0, 1, 2]) i 0 +
          get2 (Tensor.mk [1, 2] [0, 1]) 0 j) :=
  ⟨⟨by decide, by decide⟩,
    broadcast_is_expand_then_elementwise.2 (Tensor.mk [3, 1] [0, 1, 2])
      (Tensor.mk [1, 2] [0, 1]) (by decide) (by decide)⟩

end D2L
